import Mathlib

/-!
Verification of the `rmr` tool (src/rmr.py): a shallow embedding of its
Diff Change Extractor (`extract_changes`), Hunk Decision Engine
(`revert_ignored_changes`), Interactive Process Driver (`Process.__iter__`)
and the Python attribute protocol facts relevant to
`IgnoredSuggestionStore`, together with theorems settling the spec claims.

Strings are modelled by Lean `String` (a structure over `List Char`), and
the Python string primitives used by the source (`startswith`, `partition`,
`splitlines`, `split("\n")`, `rstrip("\r")`, substring containment,
truthiness) are given explicit executable definitions below.
-/

namespace Rmr

/-- `charsLead p s = true` iff the char list `p` is an initial segment of `s`. -/
def charsLead : List Char → List Char → Bool
  | [], _ => true
  | _ :: _, [] => false
  | p :: ps, s :: ss => p == s && charsLead ps ss

/-- Python `line.startswith(pre)`. -/
def pyStartsWith (line pre : String) : Bool :=
  charsLead pre.data line.data

/-- Chars after the first occurrence of `sub` (Python
`line.partition(sub)[2]`; empty when `sub` does not occur). -/
def afterSubChars (sub : List Char) : List Char → List Char
  | [] => []
  | c :: rest =>
    if charsLead sub (c :: rest) then (c :: rest).drop sub.length
    else afterSubChars sub rest

/-- Python `line.partition(sub)[2]` (`*_, x = line.partition(sub)`). -/
def afterSub (sub line : String) : String :=
  ⟨afterSubChars sub.data line.data⟩

/-- `hasSubChars sub s = true` iff `sub` occurs contiguously in `s`. -/
def hasSubChars (sub : List Char) : List Char → Bool
  | [] => sub.isEmpty
  | c :: rest => charsLead sub (c :: rest) || hasSubChars sub rest

/-- Python `sub in s` (substring containment). -/
def containsSub (s sub : String) : Bool :=
  hasSubChars sub.data s.data

/-- Helper for Python `str.splitlines()`: accumulates the current line
(reversed) and splits at `\n`, `\r\n` or `\r`; a trailing terminator does
not produce a final empty line. -/
def splitlinesChars : List Char → List Char → List String
  | [], acc => if acc.isEmpty then [] else [⟨acc.reverse⟩]
  | '\r' :: '\n' :: rest, acc => ⟨acc.reverse⟩ :: splitlinesChars rest []
  | '\r' :: rest, acc => ⟨acc.reverse⟩ :: splitlinesChars rest []
  | '\n' :: rest, acc => ⟨acc.reverse⟩ :: splitlinesChars rest []
  | c :: rest, acc => splitlinesChars rest (c :: acc)

/-- Python `output.splitlines()`. -/
def pySplitlines (s : String) : List String :=
  splitlinesChars s.data []

/-- Helper for Python `data.split("\n")` (keeps empty pieces). -/
def splitNlChars : List Char → List Char → List String
  | [], acc => [⟨acc.reverse⟩]
  | '\n' :: rest, acc => ⟨acc.reverse⟩ :: splitNlChars rest []
  | c :: rest, acc => splitNlChars rest (c :: acc)

/-- Python `data.split("\n")`. -/
def pySplitNl (s : String) : List String :=
  splitNlChars s.data []

/-- Python `line.rstrip("\r")`: drop all trailing carriage returns. -/
def pyRstripCR (s : String) : String :=
  ⟨(s.data.reverse.dropWhile (· == '\r')).reverse⟩

/-- Python truthiness of an optional string (`None` and `""` are falsy). -/
def pyTruthy : Option String → Bool
  | none => false
  | some s => !s.data.isEmpty

/-! ## Diff Change Extractor (`extract_changes`, src/rmr.py lines 87-117)

The generator is embedded as a fold over the split lines carrying the
local state `(a_path, b_path, change)`; `yield`ed pairs are collected in
order into a list. -/

/-- A `(path, change)` record yielded by the extractor; the path is
`Option String` because Python's `a_path` may still be `None` when a
change is yielded. -/
abbrev DiffPair := Option String × List String

/-- The extractor's loop state: the mutable locals `a_path`, `b_path`,
`change` of `extract_changes`. -/
structure ExtractState where
  aPath : Option String
  bPath : Option String
  change : List String
  deriving DecidableEq, Repr

/-- `yield a_path, change` guarded by `if change:`. -/
def emitIf (p : Option String) (c : List String) : List DiffPair :=
  if c.isEmpty then [] else [(p, c)]

/-- The `if not a_path and default_path: a_path = default_path` fallback:
the value `a_path` holds after that statement. -/
def dpFix (defaultPath aPath : Option String) : Option String :=
  if !pyTruthy aPath && pyTruthy defaultPath then defaultPath else aPath

/-- One iteration of the `for line in output.splitlines()` body of
`extract_changes`: returns the updated locals and the pairs yielded
during this iteration.  Branches mirror the source order exactly:
answer-echo skip, `diff `/`index ` header, `@@ ` header, `--- a/` marker,
`+++ b/` marker, default-path fallback (`dpFix`), context-line flush,
accumulation. -/
def extractStep (defaultPath : Option String) (st : ExtractState) (line : String) :
    ExtractState × List DiffPair :=
  if line = "n" ∨ line = "y" ∨ line = "s" then
    (st, [])
  else if pyStartsWith line "diff " || pyStartsWith line "index " then
    (⟨none, none, []⟩, emitIf st.aPath st.change)
  else if pyStartsWith line "@@ " then
    (st, [])
  else if pyStartsWith line "--- a/" then
    (⟨some (afterSub " a/" line), st.bPath, st.change⟩, [])
  else if pyStartsWith line "+++ b/" then
    (⟨st.aPath, some (afterSub " b/" line), st.change⟩, [])
  else if pyStartsWith line "+" || pyStartsWith line "-" then
    (⟨dpFix defaultPath st.aPath, st.bPath, st.change ++ [line]⟩, [])
  else
    (⟨dpFix defaultPath st.aPath, st.bPath, []⟩,
      emitIf (dpFix defaultPath st.aPath) st.change)

/-- Runs the loop body over a list of lines from a given state, collecting
yields in order and returning the final state. -/
def extractProc (defaultPath : Option String) : ExtractState → List String → ExtractState × List DiffPair
  | st, [] => (st, [])
  | st, l :: ls =>
    ((extractProc defaultPath (extractStep defaultPath st l).1 ls).1,
      (extractStep defaultPath st l).2 ++
        (extractProc defaultPath (extractStep defaultPath st l).1 ls).2)

/-- `extract_changes` over already-split lines: run the loop from the
initial state (`a_path = b_path = None`, `change = []`) and append the
final `if change: yield a_path, change`. -/
def extractChangesLines (lines : List String) (defaultPath : Option String) : List DiffPair :=
  (extractProc defaultPath ⟨none, none, []⟩ lines).2 ++
    emitIf (extractProc defaultPath ⟨none, none, []⟩ lines).1.aPath
      (extractProc defaultPath ⟨none, none, []⟩ lines).1.change

/-- `extract_changes(output, default_path)` (src/rmr.py lines 87-117),
with the yielded pairs collected into a list. -/
def extract_changes (output : String) (default_path : Option String) : List DiffPair :=
  extractChangesLines (pySplitlines output) default_path




/-! ## Hunk Decision Engine (`revert_ignored_changes`, src/rmr.py lines 120-139)

The loop is embedded as a recursion over the list of lines produced by the
driver, threading the locals `buffer` and `path`.  It is parameterised by a
membership oracle `mem` standing for the `(path, change) in
permanently_ignored` test (whose actual runtime behaviour is settled
separately: see `IgnoredSuggestionStoreMethods` below).  Each recognised
prompt is recorded as a `DecisionRec` carrying the buffer text consumed,
the default path in force, and the event the branch produces. -/

/-- The single-character answers the engine can write back. -/
inductive Answer
  | y
  | n
  | s
  deriving DecidableEq, Repr

/-- What happens at a recognised discard prompt: either an answer line is
written via `proc.writeline`, or the zero-changes branch hits
`breakpoint()` (recorded with the offending buffer). -/
inductive EngineEvent
  | wrote (a : Answer)
  | debuggerBreak (buf : String)
  deriving DecidableEq, Repr

/-- One recognised prompt: the buffer handed to `extract_changes`, the
`path` used as its default, and the resulting event. -/
structure DecisionRec where
  dBuf : String
  dPath : Option String
  dEvent : EngineEvent
  deriving DecidableEq, Repr

/-- The fixed recognition phrase tested with `in` against each line. -/
def promptPhrase : String := "Discard this hunk from worktree"

/-- The engine loop (src/rmr.py lines 120-139) instrumented to record one
`DecisionRec` per recognised prompt, in order.  `buf`/`p` are the locals
`buffer`/`path`; on the single-change branch `path` is rebound to the
extracted pair's path (`[[path, change]] = changes`); the buffer is reset
to `""` after every recognised prompt; any other line is appended to the
buffer followed by a newline. -/
def engineTrace (mem : Option String → List String → Bool) :
    String → Option String → List String → List DecisionRec
  | _, _, [] => []
  | buf, p, l :: ls =>
    if containsSub l promptPhrase then
      let changes := extract_changes buf p
      if changes.length > 1 then
        ⟨buf, p, .wrote .s⟩ :: engineTrace mem "" p ls
      else
        match changes with
        | [] => ⟨buf, p, .debuggerBreak buf⟩ :: engineTrace mem "" p ls
        | (q, c) :: _ =>
          ⟨buf, p, .wrote (if mem q c then .y else .n)⟩ :: engineTrace mem "" q ls
    else
      engineTrace mem (buf ++ l ++ "\n") p ls

/-- Modelled from the spec: "every emitted decision consumes exactly the
buffered text accumulated since the previous decision (or session start)"
— the buffers a correct engine should decide, computed directly by
segmenting the line stream at recognition lines, each segment being the
newline-terminated concatenation of the lines since the last decision. -/
def specBufferSegments : List String → String → List String
  | [], _ => []
  | l :: ls, buf =>
    if containsSub l promptPhrase then buf :: specBufferSegments ls ""
    else specBufferSegments ls (buf ++ l ++ "\n")

/-- A realistic recognition line as printed by `git checkout -p`. -/
def gitDiscardPrompt : String := "Discard this hunk from worktree [y,n,q,a,d,e,?]? "



/-! ## `IgnoredSuggestionStore` and the Python `in` protocol
(src/rmr.py lines 41-79, used at line 133)

The store's membership method is spelled `__contains___` — three trailing
underscores — so it is not the `__contains__` protocol hook.  Python's
`x in obj` succeeds only through `__contains__`, `__iter__` or
`__getitem__`; with none of them defined it raises `TypeError`.  We embed
the store's method table (its `def`s, as named in the source) and the
protocol's fallback chain. -/

/-- The methods `class IgnoredSuggestionStore` defines, exactly as named
in src/rmr.py lines 41-79 (note the three trailing underscores on the
would-be containment hook). -/
def IgnoredSuggestionStoreMethods : List String :=
  ["__init__", "__enter__", "__exit__", "add", "__contains___"]

/-- The special methods Python's `in` operator can fall back on. -/
def pyInProtocolHooks : List String :=
  ["__contains__", "__iter__", "__getitem__"]

/-- Whether `x in obj` can be evaluated at all for a class with the given
method table; when false, the `in` expression raises `TypeError`. -/
def pyInOperatorUsable (methods : List String) : Bool :=
  pyInProtocolHooks.any (fun h => methods.contains h)

/-! ## Interactive Process Driver (`Process.__iter__`, src/rmr.py lines 23-35)

The loop is embedded against an observation trace: one `PtyObs` per
iteration records what `self.proc.poll()` and `select.select` report at
the top of that iteration (`exited` — poll returned non-`None`; `errCond`
— the exceptional set was non-empty; `readData` — the decoded data
`os.read` returns when the readable set was non-empty; `writable` — the
writable set was non-empty).  The embedding returns the lines yielded. -/

/-- One iteration's kernel-side observations. -/
structure PtyObs where
  exited : Bool
  errCond : Bool
  readData : Option String
  writable : Bool
  deriving DecidableEq, Repr

/-- The lines one readable observation yields:
`data.split("\n")` with each piece's trailing `\r` stripped. -/
def obsLines (o : PtyObs) : List String :=
  match o.readData with
  | none => []
  | some data => (pySplitNl data).map pyRstripCR

/-- `Process.__iter__` over an observation trace, threading the
`_stdin_queue`: stops before doing anything once `poll()` is non-`None`
(the `while` condition), returns at once on an error condition, otherwise
yields the read lines and, if writable and the queue is non-empty, pops
its head. -/
def processIter : List PtyObs → List String → List String
  | [], _ => []
  | o :: rest, q =>
    if o.exited then []
    else if o.errCond then []
    else obsLines o ++ processIter rest (if o.writable && !q.isEmpty then q.drop 1 else q)


/-! ## Well-formed diff texts

Modelled from the spec: "diff text composed of N well-formed hunks across
M files with no stray blank/context lines inside hunks" — a diff is a list
of files; each file renders its `diff --git`/`index` headers, its
`--- a/`/`+++ b/` path markers, and its hunks; each hunk renders an `@@ `
header followed by its body of `+`/`-` lines (no context or blank lines
inside). -/

/-- One well-formed hunk: an `@@ ` header payload and a body of
added/removed lines. -/
structure Hunk where
  header : String
  body : List String
  deriving DecidableEq, Repr

/-- One file's diff section: its "before" path and its hunks. -/
structure FileDiff where
  fpath : String
  hunks : List Hunk
  deriving DecidableEq, Repr

/-- A well-formed hunk body line: starts with `+` or `-` and is not itself
a `--- a/` or `+++ b/` path marker. -/
def hunkLineOk (l : String) : Bool :=
  (pyStartsWith l "+" || pyStartsWith l "-") &&
    !pyStartsWith l "--- a/" && !pyStartsWith l "+++ b/"

/-- A well-formed hunk: non-empty body of well-formed lines. -/
def hunkOk (h : Hunk) : Bool :=
  !h.body.isEmpty && h.body.all hunkLineOk

/-- A well-formed file section. -/
def fileOk (f : FileDiff) : Bool :=
  f.hunks.all hunkOk

/-- All file sections well-formed. -/
def filesOk (files : List FileDiff) : Bool :=
  files.all fileOk

/-- The hunk count N of a diff. -/
def totalHunks (files : List FileDiff) : Nat :=
  (files.map (fun f => f.hunks.length)).sum

/-- Render one hunk: `@@ ` header line, then its body. -/
def renderHunk (h : Hunk) : List String :=
  ("@@ " ++ h.header) :: h.body

/-- Render one file section: headers, path markers, hunks. -/
def renderFile (f : FileDiff) : List String :=
  ["diff --git a/" ++ f.fpath ++ " b/" ++ f.fpath,
   "index 0000000..1111111 100644",
   "--- a/" ++ f.fpath,
   "+++ b/" ++ f.fpath] ++ f.hunks.flatMap renderHunk

/-- Render a whole diff as its list of lines. -/
def renderDiff (files : List FileDiff) : List String :=
  files.flatMap renderFile

/-- Render one hunk followed by one context line (the shape hunks have
whenever consecutive hunks of a file are separated by context). -/
def renderHunkSep (h : Hunk) : List String :=
  ("@@ " ++ h.header) :: h.body ++ [" "]

/-- Render one file section with a context line after each hunk. -/
def renderFileSep (f : FileDiff) : List String :=
  ["diff --git a/" ++ f.fpath ++ " b/" ++ f.fpath,
   "index 0000000..1111111 100644",
   "--- a/" ++ f.fpath,
   "+++ b/" ++ f.fpath] ++ f.hunks.flatMap renderHunkSep

/-- Render a whole diff with context-separated hunks. -/
def renderDiffSep (files : List FileDiff) : List String :=
  files.flatMap renderFileSep

/-- The `(path, change)` records a well-formed diff declares: one per
hunk, carrying the file's "before" path. -/
def declaredRecords (files : List FileDiff) : List DiffPair :=
  files.flatMap (fun f => f.hunks.map (fun h => (some f.fpath, h.body)))

/-- A two-hunks-in-one-file diff with no context between the hunks (the
shape `git diff -U0` produces). -/
def twoHunkFile : List FileDiff :=
  [⟨"f", [⟨"-1 +1 @@", ["-x"]⟩, ⟨"-3 +3 @@", ["-y"]⟩]⟩]




/-! ## Extractor lemmas -/

theorem extractProc_append (d : Option String) (st : ExtractState) (xs ys : List String) :
    extractProc d st (xs ++ ys) =
      ((extractProc d (extractProc d st xs).1 ys).1,
        (extractProc d st xs).2 ++ (extractProc d (extractProc d st xs).1 ys).2) := by
  induction xs generalizing st with
  | nil => simp [extractProc]
  | cons x xs ih => simp [extractProc, ih]

theorem emitIf_mem (p : Option String) (c : List String) (pr : DiffPair)
    (h : pr ∈ emitIf p c) : pr = (p, c) ∧ c ≠ [] := by
  unfold emitIf at h
  split at h
  · simp at h
  · rename_i hc
    simp at h
    simp [h]
    intro hnil
    simp [hnil] at hc

theorem emitIf_empty (p : Option String) : emitIf p [] = [] := by
  simp [emitIf]

theorem extractStep_plus (P b : Option String) (acc : List String) (t : List Char)
    (h2 : charsLead ['+', '+', ' ', 'b', '/'] t = false) :
    extractStep none ⟨P, b, acc⟩ ⟨'+' :: t⟩ = (⟨P, b, acc ++ [⟨'+' :: t⟩]⟩, []) := by
  simp [extractStep, dpFix, pyStartsWith, charsLead, pyTruthy, String.ext_iff, h2]

theorem extractStep_minus (P b : Option String) (acc : List String) (t : List Char)
    (h1 : charsLead ['-', '-', ' ', 'a', '/'] t = false) :
    extractStep none ⟨P, b, acc⟩ ⟨'-' :: t⟩ = (⟨P, b, acc ++ [⟨'-' :: t⟩]⟩, []) := by
  simp [extractStep, dpFix, pyStartsWith, charsLead, pyTruthy, String.ext_iff, h1]

theorem extractStep_hunkLine (P b : Option String) (acc : List String)
    (l : String) (h : hunkLineOk l = true) :
    extractStep none ⟨P, b, acc⟩ l = (⟨P, b, acc ++ [l]⟩, []) := by
  obtain ⟨d⟩ := l
  cases d with
  | nil => simp [hunkLineOk, pyStartsWith, charsLead] at h
  | cons c t =>
    simp only [hunkLineOk, Bool.and_eq_true, Bool.or_eq_true, Bool.not_eq_true'] at h
    obtain ⟨⟨hpm, h1⟩, h2⟩ := h
    rcases hpm with hp | hp
    · simp [pyStartsWith, charsLead] at hp
      subst hp
      simp [pyStartsWith, charsLead] at h2
      exact extractStep_plus P b acc t h2
    · simp [pyStartsWith, charsLead] at hp
      subst hp
      simp [pyStartsWith, charsLead] at h1
      exact extractStep_minus P b acc t h1

theorem extractStep_context (P b : Option String) (acc : List String) :
    extractStep none ⟨P, b, acc⟩ " " = (⟨P, b, []⟩, emitIf P acc) := by
  simp [extractStep, dpFix, pyStartsWith, charsLead, pyTruthy, String.ext_iff]

theorem extractStep_atat (P b : Option String) (acc : List String) (hdr : String) :
    extractStep none ⟨P, b, acc⟩ ("@@ " ++ hdr) = (⟨P, b, acc⟩, []) := by
  simp [extractStep, pyStartsWith, charsLead, String.ext_iff]

theorem extractStep_diffHeader (st : ExtractState) (P : String) :
    extractStep none st ("diff --git a/" ++ P ++ " b/" ++ P) =
      (⟨none, none, []⟩, emitIf st.aPath st.change) := by
  simp [extractStep, pyStartsWith, charsLead, String.ext_iff]

theorem extractStep_indexHeader (st : ExtractState) :
    extractStep none st "index 0000000..1111111 100644" =
      (⟨none, none, []⟩, emitIf st.aPath st.change) := by
  simp [extractStep, pyStartsWith, charsLead, String.ext_iff]

theorem afterSub_markerA (P : String) : afterSub " a/" ("--- a/" ++ P) = P := by
  simp [afterSub, afterSubChars, charsLead]

theorem afterSub_markerB (P : String) : afterSub " b/" ("+++ b/" ++ P) = P := by
  simp [afterSub, afterSubChars, charsLead]

theorem extractStep_aMarker (st : ExtractState) (P : String) :
    extractStep none st ("--- a/" ++ P) = (⟨some P, st.bPath, st.change⟩, []) := by
  simp [extractStep, pyStartsWith, charsLead, String.ext_iff, afterSub_markerA]

theorem extractStep_bMarker (st : ExtractState) (P : String) :
    extractStep none st ("+++ b/" ++ P) = (⟨st.aPath, some P, st.change⟩, []) := by
  simp [extractStep, pyStartsWith, charsLead, String.ext_iff, afterSub_markerB]

theorem extractProc_body (P b : Option String) (acc body : List String)
    (h : body.all hunkLineOk = true) :
    extractProc none ⟨P, b, acc⟩ body = (⟨P, b, acc ++ body⟩, []) := by
  induction body generalizing acc with
  | nil => simp [extractProc]
  | cons l ls ih =>
    simp only [List.all_cons, Bool.and_eq_true] at h
    simp [extractProc, extractStep_hunkLine P b acc l h.1, ih _ h.2]

theorem extractProc_hunkSep (P b : Option String) (h : Hunk) (hok : hunkOk h = true) :
    extractProc none ⟨P, b, []⟩ (renderHunkSep h) = (⟨P, b, []⟩, [(P, h.body)]) := by
  simp only [hunkOk, Bool.and_eq_true, Bool.not_eq_true'] at hok
  obtain ⟨hne, hall⟩ := hok
  have hbody := extractProc_body P b [] h.body hall
  simp only [List.nil_append] at hbody
  simp [renderHunkSep, extractProc, extractStep_atat, extractProc_append, hbody,
    extractStep_context, emitIf, hne]

theorem extractProc_hunksSep (P b : Option String) (hs : List Hunk)
    (h : hs.all hunkOk = true) :
    extractProc none ⟨P, b, []⟩ (hs.flatMap renderHunkSep) =
      (⟨P, b, []⟩, hs.map (fun hk => (P, hk.body))) := by
  induction hs with
  | nil => simp [extractProc]
  | cons hk hs ih =>
    simp only [List.all_cons, Bool.and_eq_true] at h
    simp [extractProc_append, extractProc_hunkSep P b hk h.1, ih h.2]

theorem extractProc_fileSep (st : ExtractState) (f : FileDiff)
    (hok : fileOk f = true) (hch : st.change = []) :
    extractProc none st (renderFileSep f) =
      (⟨some f.fpath, some f.fpath, []⟩,
        f.hunks.map (fun hk => (some f.fpath, hk.body))) := by
  obtain ⟨a, b, c⟩ := st
  simp only at hch
  subst hch
  simp [renderFileSep, extractProc, extractStep_diffHeader, extractStep_indexHeader,
    extractStep_aMarker, extractStep_bMarker, emitIf,
    extractProc_hunksSep (some f.fpath) (some f.fpath) f.hunks hok]

theorem extractProc_filesSep (st : ExtractState) (files : List FileDiff)
    (hok : filesOk files = true) (hch : st.change = []) :
    (extractProc none st (renderDiffSep files)).2 = declaredRecords files ∧
      (extractProc none st (renderDiffSep files)).1.change = [] := by
  induction files generalizing st with
  | nil => simp [renderDiffSep, declaredRecords, extractProc, hch]
  | cons f fs ih =>
    simp only [filesOk, List.all_cons, Bool.and_eq_true] at hok
    have hfile := extractProc_fileSep st f hok.1 hch
    have hrest := ih ⟨some f.fpath, some f.fpath, []⟩ (by simp [filesOk, hok.2]) rfl
    simp [renderDiffSep, declaredRecords, extractProc_append, hfile]
    constructor
    · exact hrest.1
    · exact hrest.2

theorem extractStep_ans (d : Option String) (st : ExtractState) (a : String)
    (ha : a = "n" ∨ a = "y" ∨ a = "s") : extractStep d st a = (st, []) := by
  unfold extractStep
  rw [if_pos ha]

theorem extractProc_ansCons (d : Option String) (st : ExtractState) (a : String)
    (ha : a = "n" ∨ a = "y" ∨ a = "s") (ys : List String) :
    extractProc d st (a :: ys) = extractProc d st ys := by
  simp [extractProc, extractStep_ans d st a ha]

/-- A diff content line: starts with `+` or `-`. -/
def plusMinus (l : String) : Bool :=
  pyStartsWith l "+" || pyStartsWith l "-"

theorem extractStep_plusMinus_inv (d : Option String) (st : ExtractState) (l : String)
    (hst : st.change.all plusMinus = true) :
    ((extractStep d st l).1.change.all plusMinus = true) ∧
      ∀ pr ∈ (extractStep d st l).2, pr.2 ≠ [] ∧ pr.2.all plusMinus = true := by
  unfold extractStep
  split
  · exact ⟨hst, by simp⟩
  split
  · refine ⟨by simp, ?_⟩
    intro pr hpr
    obtain ⟨rfl, hne⟩ := emitIf_mem _ _ _ hpr
    exact ⟨hne, hst⟩
  split
  · exact ⟨hst, by simp⟩
  split
  · exact ⟨hst, by simp⟩
  split
  · exact ⟨hst, by simp⟩
  split
  · rename_i hpm
    refine ⟨?_, by simp⟩
    simpa [plusMinus, hst] using hpm
  · refine ⟨by simp, ?_⟩
    intro pr hpr
    obtain ⟨rfl, hne⟩ := emitIf_mem _ _ _ hpr
    exact ⟨hne, hst⟩

theorem extractProc_plusMinus_inv (d : Option String) (lines : List String) :
    ∀ st : ExtractState, st.change.all plusMinus = true →
      ((extractProc d st lines).1.change.all plusMinus = true) ∧
        ∀ pr ∈ (extractProc d st lines).2, pr.2 ≠ [] ∧ pr.2.all plusMinus = true := by
  induction lines with
  | nil =>
    intro st hst
    exact ⟨hst, by simp [extractProc]⟩
  | cons l ls ih =>
    intro st hst
    obtain ⟨h1, h2⟩ := extractStep_plusMinus_inv d st l hst
    obtain ⟨h3, h4⟩ := ih _ h1
    refine ⟨h3, ?_⟩
    intro pr hpr
    simp only [extractProc, List.mem_append] at hpr
    rcases hpr with hpr | hpr
    · exact h2 pr hpr
    · exact h4 pr hpr

/-- Invariant for the default-path theorem: the extractor's `a_path` is
either still unset or equal to the supplied default, and is equal to the
default whenever a change is pending. -/
def dpInv (dp : String) (st : ExtractState) : Prop :=
  (st.aPath = none ∨ st.aPath = some dp) ∧ (st.change ≠ [] → st.aPath = some dp)

theorem pyTruthy_of_ne (dp : String) (hdp : dp ≠ "") : pyTruthy (some dp) = true := by
  simp only [pyTruthy, Bool.not_eq_true']
  cases hh : dp.data with
  | nil => exact absurd (String.ext (by rw [hh])) hdp
  | cons c t => rfl

theorem dpFix_eq (dp : String) (hdp : dp ≠ "") (a : Option String)
    (ha : a = none ∨ a = some dp) : dpFix (some dp) a = some dp := by
  have hn : pyTruthy none = false := rfl
  rcases ha with rfl | rfl
  · simp [dpFix, hn, pyTruthy_of_ne dp hdp]
  · simp [dpFix, pyTruthy_of_ne dp hdp]

theorem extractStep_dp_inv (dp : String) (hdp : dp ≠ "") (st : ExtractState) (l : String)
    (hl : pyStartsWith l "--- a/" = false) (hst : dpInv dp st) :
    dpInv dp (extractStep (some dp) st l).1 ∧
      ∀ pr ∈ (extractStep (some dp) st l).2, pr.1 = some dp := by
  have hfix : dpFix (some dp) st.aPath = some dp := dpFix_eq dp hdp st.aPath hst.1
  unfold extractStep
  split
  · exact ⟨hst, by simp⟩
  split
  · refine ⟨⟨Or.inl rfl, by simp⟩, ?_⟩
    intro pr hpr
    obtain ⟨rfl, hne⟩ := emitIf_mem _ _ _ hpr
    exact hst.2 hne
  split
  · exact ⟨hst, by simp⟩
  split
  · rename_i hc
    rw [hl] at hc
    exact absurd hc (by simp)
  split
  · exact ⟨⟨hst.1, hst.2⟩, by simp⟩
  split
  · exact ⟨⟨Or.inr hfix, fun _ => hfix⟩, by simp⟩
  · refine ⟨⟨Or.inr hfix, by simp⟩, ?_⟩
    intro pr hpr
    obtain ⟨rfl, hne⟩ := emitIf_mem _ _ _ hpr
    exact hfix

theorem extractProc_dp_inv (dp : String) (hdp : dp ≠ "") (lines : List String)
    (hm : ∀ l ∈ lines, pyStartsWith l "--- a/" = false) :
    ∀ st : ExtractState, dpInv dp st →
      dpInv dp (extractProc (some dp) st lines).1 ∧
        ∀ pr ∈ (extractProc (some dp) st lines).2, pr.1 = some dp := by
  induction lines with
  | nil =>
    intro st hst
    exact ⟨hst, by simp [extractProc]⟩
  | cons l ls ih =>
    intro st hst
    obtain ⟨h1, h2⟩ := extractStep_dp_inv dp hdp st l (hm l (by simp)) hst
    obtain ⟨h3, h4⟩ := ih (fun x hx => hm x (by simp [hx])) _ h1
    refine ⟨h3, ?_⟩
    intro pr hpr
    simp only [extractProc, List.mem_append] at hpr
    rcases hpr with hpr | hpr
    · exact h2 pr hpr
    · exact h4 pr hpr

/-! ## Engine lemmas -/

theorem engineTrace_cons_noRec (mem : Option String → List String → Bool)
    (buf : String) (p : Option String) (l : String) (ls : List String)
    (h : containsSub l promptPhrase = false) :
    engineTrace mem buf p (l :: ls) = engineTrace mem (buf ++ l ++ "\n") p ls := by
  simp [engineTrace, h]

theorem engineTrace_cons_rec (mem : Option String → List String → Bool)
    (buf : String) (p : Option String) (l : String) (ls : List String)
    (h : containsSub l promptPhrase = true) :
    ∃ r p', engineTrace mem buf p (l :: ls) = r :: engineTrace mem "" p' ls ∧
      r.dBuf = buf := by
  simp only [engineTrace, h, if_true]
  split
  · exact ⟨_, p, rfl, rfl⟩
  · split
    · exact ⟨_, p, rfl, rfl⟩
    · exact ⟨_, _, rfl, rfl⟩

theorem declaredRecords_length (files : List FileDiff) :
    (declaredRecords files).length = totalHunks files := by
  induction files with
  | nil => rfl
  | cons f fs ih =>
    simp only [declaredRecords, totalHunks, List.flatMap_cons, List.length_append,
      List.length_map, List.map_cons, List.sum_cons] at ih ⊢
    rw [ih]

/-! ## Claim theorems -/

/-- Claim C1 (code bug): the spec's ignore-policy membership interface
(`contains(path, change) -> bool`) is what `revert_ignored_changes` needs at
`(path, change) in permanently_ignored`, but `IgnoredSuggestionStore` spells
the hook `__contains___` (three trailing underscores) and defines none of
the special methods Python's `in` operator can use, so the membership test
raises `TypeError` instead of answering `y`/`n`. -/
theorem contains_hook_is_misspelled :
    pyInOperatorUsable IgnoredSuggestionStoreMethods = false ∧
      IgnoredSuggestionStoreMethods.contains "__contains___" = true := by
  decide

/-- Claim C2, counterexample: a diff made of two well-formed hunks of one
file, separated only by their `@@ ` headers (no context lines), extracts to
a single merged `(path, change)` pair, not two — `extract_changes` skips
`@@ ` lines without flushing the pending change. -/
theorem atat_separated_hunks_merge :
    filesOk twoHunkFile = true ∧ totalHunks twoHunkFile = 2 ∧
      (extractChangesLines (renderDiff twoHunkFile) none).length = 1 := by
  decide

/-- Claim C2 (amended): for every diff text composed of N well-formed hunks
across M files, where every hunk is followed by a context line (so
consecutive hunks of a file are context-separated), extraction yields
exactly the N `(path, change)` pairs in order, each carrying the file's
declared `--- a/` before-path and exactly the hunk's `+`/`-` lines. -/
theorem extraction_of_context_separated_diffs (files : List FileDiff)
    (hok : filesOk files = true) :
    extractChangesLines (renderDiffSep files) none = declaredRecords files ∧
      (extractChangesLines (renderDiffSep files) none).length = totalHunks files := by
  have h := extractProc_filesSep ⟨none, none, []⟩ files hok rfl
  have he : extractChangesLines (renderDiffSep files) none = declaredRecords files := by
    unfold extractChangesLines
    rw [h.1, h.2, emitIf_empty, List.append_nil]
  exact ⟨he, by rw [he, declaredRecords_length]⟩

/-- Witness for the amended C2 at a concrete two-hunk diff. -/
theorem extraction_of_context_separated_diffs_witness :
    extractChangesLines (renderDiffSep twoHunkFile) none = declaredRecords twoHunkFile ∧
      (extractChangesLines (renderDiffSep twoHunkFile) none).length = totalHunks twoHunkFile :=
  extraction_of_context_separated_diffs twoHunkFile (by decide)

/-- Claim C3: in any engine run, a recognised discard prompt whose buffered
text extracts to more than one change is answered with the single `s`
answer (never `y` or `n`). -/
theorem ambiguous_prompt_gets_s_answer
    (mem : Option String → List String → Bool) (lines : List String) :
    ∀ (buf : String) (p : Option String) (r : DecisionRec),
      r ∈ engineTrace mem buf p lines →
      (extract_changes r.dBuf r.dPath).length > 1 →
      r.dEvent = .wrote .s := by
  induction lines with
  | nil =>
    intro buf p r hr
    simp [engineTrace] at hr
  | cons l ls ih =>
    intro buf p r hr hlen
    simp only [engineTrace] at hr
    split at hr
    · split at hr
      · rcases List.mem_cons.1 hr with rfl | hr'
        · rfl
        · exact ih "" p r hr' hlen
      · rename_i hgt
        split at hr
        · rcases List.mem_cons.1 hr with rfl | hr'
          · rename_i heq
            dsimp only at hlen
            rw [heq] at hlen
            simp at hlen
          · exact ih "" p r hr' hlen
        · rcases List.mem_cons.1 hr with rfl | hr'
          · exact absurd hlen hgt
          · exact ih "" _ r hr' hlen
    · exact ih _ p r hr hlen

/-- Witness for C3: an ambiguous buffer (two `+` runs separated by a
context line, no headers) gets the `s` answer. -/
theorem ambiguous_prompt_gets_s_answer_witness :
    (⟨"+a\n .\n+b\n", none, .wrote .s⟩ : DecisionRec) ∈
        engineTrace (fun _ _ => false) "" none ["+a", " .", "+b", gitDiscardPrompt] ∧
      (extract_changes "+a\n .\n+b\n" none).length > 1 ∧
      (⟨"+a\n .\n+b\n", none, EngineEvent.wrote .s⟩ : DecisionRec).dEvent = .wrote .s :=
  ⟨by decide, by decide,
    ambiguous_prompt_gets_s_answer (fun _ _ => false)
      ["+a", " .", "+b", gitDiscardPrompt] "" none _ (by decide) (by decide)⟩

/-- Claim C4 (code bug): at a recognised discard prompt whose buffer
extracts to zero changes, the engine writes no answer line, but instead of
halting with a diagnostic it executes `breakpoint()` (src/rmr.py line 129),
suspending into an interactive debugger; the spec itself calls this
behaviour a defect to be replaced by a hard failure.  Evaluated at a
concrete failing input: the only event is the debugger break, no `wrote`. -/
theorem empty_extraction_hits_debugger :
    engineTrace (fun _ _ => false) "" none [" only context", gitDiscardPrompt] =
      [⟨" only context\n", none, .debuggerBreak " only context\n"⟩] := by
  decide

/-- Claim C5, counterexample: with one pending readable chunk at an
iteration where `poll()` already reports the child exited, the loop yields
nothing — the line `"final"` the child emitted before exiting is lost, so
iteration does not drain pending output. -/
theorem pending_output_lost_on_exit :
    processIter [⟨true, false, some "final\n", true⟩] [] = [] ∧
      obsLines ⟨true, false, some "final\n", true⟩ = ["final", ""] := by
  decide

/-- Claim C5 (amended): the line-production loop ends as soon as it
observes the child exited or a terminal error condition (without raising),
yielding exactly the lines read strictly before that observation; output
still pending when the child exits is not yielded. -/
theorem iter_yields_reads_before_exit_or_error (trace : List PtyObs) (q : List String) :
    processIter trace q =
      (trace.takeWhile (fun o => !o.exited && !o.errCond)).flatMap obsLines := by
  induction trace generalizing q with
  | nil => simp [processIter]
  | cons o rest ih =>
    cases h1 : o.exited with
    | true => simp [processIter, List.takeWhile_cons, h1]
    | false =>
      cases h2 : o.errCond with
      | true => simp [processIter, List.takeWhile_cons, h1, h2]
      | false => simp [processIter, List.takeWhile_cons, h1, h2, ih]

/-- Claim C6: the engine's decisions consume exactly the text buffered
since the previous decision (or session start): the sequence of buffers
handed to `extract_changes` equals the segmentation of the line stream at
recognition lines (each segment the newline-joined lines since the last
decision, buffer reset to empty after each), and there is exactly one
decision per recognition line. -/
theorem decisions_consume_exact_buffer_segments
    (mem : Option String → List String → Bool) (lines : List String) :
    ∀ (buf : String) (p : Option String),
      (engineTrace mem buf p lines).map (fun r => r.dBuf) = specBufferSegments lines buf ∧
        (engineTrace mem buf p lines).length =
          lines.countP (fun l => containsSub l promptPhrase) := by
  induction lines with
  | nil =>
    intro buf p
    simp [engineTrace, specBufferSegments]
  | cons l ls ih =>
    intro buf p
    cases h : containsSub l promptPhrase with
    | false =>
      rw [engineTrace_cons_noRec mem buf p l ls h]
      have hih := ih (buf ++ l ++ "\n") p
      simp [specBufferSegments, h, List.countP_cons, hih.1, hih.2]
    | true =>
      obtain ⟨r, p', heq, hbuf⟩ := engineTrace_cons_rec mem buf p l ls h
      rw [heq]
      have hih := ih "" p'
      simp [specBufferSegments, h, List.countP_cons, hbuf, hih.1, hih.2]

/-- Claim C7: `extract_changes` is deterministic — two runs on equal input
text and equal default path yield equal sequences of pairs (the embedding
is a pure function of its two arguments, mirroring the generator's lack of
hidden state). -/
theorem extract_changes_deterministic (t₁ t₂ : String) (d₁ d₂ : Option String)
    (ht : t₁ = t₂) (hd : d₁ = d₂) :
    extract_changes t₁ d₁ = extract_changes t₂ d₂ := by
  rw [ht, hd]

/-- Witness for C7 at a concrete input. -/
theorem extract_changes_deterministic_witness :
    extract_changes "--- a/f\n+x" none = extract_changes "--- a/f\n+x" none :=
  extract_changes_deterministic "--- a/f\n+x" "--- a/f\n+x" none none rfl rfl

/-- Claim C8: on text with no `--- a/` marker line and a supplied
(non-empty) default path, every emitted record carries that default path. -/
theorem default_path_used_without_markers (output : String) (dp : String)
    (hdp : dp ≠ "")
    (hm : ∀ l ∈ pySplitlines output, pyStartsWith l "--- a/" = false) :
    ∀ pr ∈ extract_changes output (some dp), pr.1 = some dp := by
  intro pr hpr
  have hinv := extractProc_dp_inv dp hdp (pySplitlines output) hm ⟨none, none, []⟩
    ⟨Or.inl rfl, fun h => absurd rfl h⟩
  unfold extract_changes extractChangesLines at hpr
  rcases List.mem_append.1 hpr with h | h
  · exact hinv.2 pr h
  · obtain ⟨rfl, hne⟩ := emitIf_mem _ _ _ h
    exact (hinv.1).2 hne

/-- Witness for C8 at a concrete input. -/
theorem default_path_used_without_markers_witness :
    ((some "d", ["+x"]) : DiffPair).1 = some "d" :=
  default_path_used_without_markers "+x" "d" (by decide) (by decide)
    (some "d", ["+x"]) (by decide)

/-- Claim C9: an input line that is exactly `n`, `y` or `s` is a no-op for
the extractor: the loop state passes through it unchanged (so it neither
joins a change nor terminates the accumulating one), and deleting such a
line from anywhere in the input leaves the extraction unchanged. -/
theorem answer_echo_lines_are_noops (a : String) (ha : a = "n" ∨ a = "y" ∨ a = "s") :
    (∀ (d : Option String) (st : ExtractState), extractStep d st a = (st, [])) ∧
      ∀ (xs ys : List String) (d : Option String),
        extractChangesLines (xs ++ a :: ys) d = extractChangesLines (xs ++ ys) d := by
  refine ⟨fun d st => extractStep_ans d st a ha, ?_⟩
  intro xs ys d
  unfold extractChangesLines
  rw [extractProc_append d _ xs (a :: ys), extractProc_append d _ xs ys,
    extractProc_ansCons d _ a ha ys]

/-- Witness for C9 at a concrete input. -/
theorem answer_echo_lines_are_noops_witness :
    extractChangesLines (["+a"] ++ "y" :: ["+b"]) none =
      extractChangesLines (["+a"] ++ ["+b"]) none :=
  (answer_echo_lines_are_noops "y" (Or.inr (Or.inl rfl))).2 ["+a"] ["+b"] none

/-- Claim C10: every change yielded, for any input text and default path,
is a non-empty list all of whose lines start with `+` or `-`. -/
theorem changes_nonempty_all_plusminus (output : String) (d : Option String) :
    ∀ pr ∈ extract_changes output d, pr.2 ≠ [] ∧ pr.2.all plusMinus = true := by
  intro pr hpr
  have hinv := extractProc_plusMinus_inv d (pySplitlines output) ⟨none, none, []⟩ rfl
  unfold extract_changes extractChangesLines at hpr
  rcases List.mem_append.1 hpr with h | h
  · exact hinv.2 pr h
  · obtain ⟨rfl, hne⟩ := emitIf_mem _ _ _ h
    exact ⟨hne, hinv.1⟩

/-- Witness for C10 at a concrete input.  (The `∈` premise counts as a
hypothesis, so the conclusion is exhibited at a concrete record.) -/
theorem changes_nonempty_all_plusminus_witness :
    ((some "f", ["+x"]) : DiffPair).2 ≠ [] ∧
      ((some "f", ["+x"]) : DiffPair).2.all plusMinus = true :=
  changes_nonempty_all_plusminus "--- a/f\n+x" none (some "f", ["+x"]) (by decide)

end Rmr
